import Mathlib

/-!
Verification of the randomized-benchmarking helper module
(`qiskit/ignis/verification/randomized_benchmarking/rb_utils.py`).

The module consists of four stateless numeric functions:
`count_gates`, `gates_per_clifford`, `coherence_limit` and
`twoQ_clifford_error`.  They are embedded below over exact arithmetic
(`ℚ` for the counting / dividing functions, `ℝ` with `Real.exp` for the
coherence-limit formulas).  Python dictionaries are embedded as
association lists (one entry per distinct key, first-match lookup, and
`try ... except KeyError: pass` updates become no-op updates), and
Python exceptions become an `Except PyError` result.
-/

namespace RB

/-- One circuit instruction: a gate name and the indices of the qubits it
acts on (in the `QuantumCircuit` path these are the `qreg.index` values of
the instruction's quantum registers). -/
structure Instruction where
  name : String
  qubits : List ℕ
deriving DecidableEq, Repr

/-- A transpiled `QuantumCircuit`: its `data` is the ordered instruction
list (each entry of Python's `circuit.data` contributes its instruction
name and qubit indices). -/
structure QuantumCircuit where
  data : List Instruction
deriving DecidableEq, Repr

/-- One experiment of a compiled `QasmQobj`. -/
structure QasmExperiment where
  instructions : List Instruction
deriving DecidableEq, Repr

/-- A compiled `QasmQobj`: a collection of experiments. -/
structure QasmQobj where
  experiments : List QasmExperiment
deriving DecidableEq, Repr

/-- An element of a circuit-group list: either an actual `QuantumCircuit`
or some other Python object (anything failing the
`isinstance(transpiled_circuit, QuantumCircuit)` test). -/
inductive CircuitElem where
  | qc (c : QuantumCircuit)
  | other
deriving DecidableEq, Repr

/-- One element of `transpiled_circuits_list`: either a `QasmQobj` or a
list of objects (the per-seed list of transpiled circuits). -/
inductive CircuitGroup where
  | qobj (j : QasmQobj)
  | circuits (cs : List CircuitElem)
deriving DecidableEq, Repr

/-- The Python exceptions the module can raise. -/
inductive PyError where
  | typeError (msg : String)
  | valueError (msg : String)
  | indexError
deriving DecidableEq, Repr

/-- First-match lookup in an association list (Python dict read). -/
def lookupVal {α β : Type} [DecidableEq α] (k : α) : List (α × β) → Option β
  | [] => none
  | (k', v) :: rest => if k' = k then some v else lookupVal k rest

/-- Update the value stored at key `k` (Python dict write to an existing
key); leaves the list unchanged when the key is absent. -/
def updateVal {α β : Type} [DecidableEq α] (k : α) (f : β → β) :
    List (α × β) → List (α × β)
  | [] => []
  | (k', v) :: rest =>
      if k' = k then (k', f v) :: rest else (k', v) :: updateVal k f rest

/-- The nested dictionary `qubit -> gate name -> value` used by
`gates_per_clifford`. -/
abbrev GateDict := List (ℕ × List (String × ℚ))

/-- Read one cell of the nested dictionary. -/
def lookup2 (d : GateDict) (q : ℕ) (b : String) : Option ℚ :=
  (lookupVal q d).bind (lookupVal b)

/-- `ngates = {qubit: {base: 0 for base in basis} for qubit in qubits}`:
a Python dict keeps a single entry per distinct key, hence the `dedup`. -/
def initDict (qubits : List ℕ) (basis : List String) : GateDict :=
  qubits.dedup.map (fun q => (q, basis.dedup.map (fun b => (b, (0 : ℚ)))))

/-- `try: ngates[q][b] += 1 except KeyError: pass` — a no-op whenever `q`
is not a key or `b` is not a key of the inner dictionary. -/
def incr (d : GateDict) (q : ℕ) (b : String) : GateDict :=
  updateVal q (updateVal b (fun v => v + 1)) d

/-- Process one instruction: `for qreg in qregs: ngates[qreg.index][instr.name] += 1`
(identically, the `for q_ind in instr.qubits` loop of the `QasmQobj` branch). -/
def countInstr (d : GateDict) (ins : Instruction) : GateDict :=
  ins.qubits.foldl (fun d q => incr d q ins.name) d

/-- Process every instruction of one transpiled circuit. -/
def countCircuit (d : GateDict) (c : QuantumCircuit) : GateDict :=
  c.data.foldl countInstr d

/-- Process the elements of one circuit-group list; a non-`QuantumCircuit`
element raises `TypeError('Input object is not QuantumCircuit.')`. -/
def countElems (d : GateDict) : List CircuitElem → Except PyError GateDict
  | [] => .ok d
  | .qc c :: rest => countElems (countCircuit d c) rest
  | .other :: _ => .error (.typeError "Input object is not QuantumCircuit.")

/-- Process every group of `transpiled_circuits_list` in order. -/
def countGroups (d : GateDict) : List CircuitGroup → Except PyError GateDict
  | [] => .ok d
  | .qobj j :: rest =>
      countGroups (j.experiments.foldl (fun d e => e.instructions.foldl countInstr d) d) rest
  | .circuits cs :: rest =>
      match countElems d cs with
      | .ok d' => countGroups d' rest
      | .error e => .error e

/-- The final normalisation loop
`for qubit in qubits: for base in basis: ngates[qubit][base] /= total_ncliffs`. -/
def divAll (d : GateDict) (qubits : List ℕ) (basis : List String) (total : ℚ) : GateDict :=
  qubits.foldl
    (fun d q => basis.foldl (fun d b => updateVal q (updateVal b (fun v => v / total)) d) d) d

/-- `gates_per_clifford(transpiled_circuits_list, clifford_lengths, basis, qubits)`.
An empty input list raises `IndexError` (the source reads
`transpiled_circuits_list[0]` for its deprecation check);
`total_ncliffs = len(transpiled_circuits_list) * np.sum(np.array(clifford_lengths) + 1)`. -/
def gates_per_clifford (tl : List CircuitGroup) (clifford_lengths : List ℕ)
    (basis : List String) (qubits : List ℕ) : Except PyError GateDict :=
  if tl.isEmpty then .error .indexError
  else
    match countGroups (initDict qubits basis) tl with
    | .error e => .error e
    | .ok d =>
        let total : ℚ := (tl.length : ℚ) * (((clifford_lengths.map (fun l => l + 1)).sum : ℕ) : ℚ)
        .ok (divAll d qubits basis total)

/-- How many `+= 1` updates one instruction sends to cell `(q, b)`: one per
occurrence of `q` among its target qubits when its name is `b`. -/
def occInstr (ins : Instruction) (q : ℕ) (b : String) : ℕ :=
  if ins.name = b then ins.qubits.count q else 0

/-- Total updates one circuit sends to cell `(q, b)`. -/
def occCircuit (c : QuantumCircuit) (q : ℕ) (b : String) : ℕ :=
  (c.data.map (fun ins => occInstr ins q b)).sum

/-- Total updates one group element sends to cell `(q, b)`. -/
def occElem : CircuitElem → ℕ → String → ℕ
  | .qc c, q, b => occCircuit c q b
  | .other, _, _ => 0

/-- Total updates one group sends to cell `(q, b)`. -/
def occGroup : CircuitGroup → ℕ → String → ℕ
  | .qobj j, q, b => (j.experiments.map (fun e => (e.instructions.map (fun ins => occInstr ins q b)).sum)).sum
  | .circuits cs, q, b => (cs.map (fun c => occElem c q b)).sum

/-- Total updates the whole input sends to cell `(q, b)`. -/
def occTotal (tl : List CircuitGroup) (q : ℕ) (b : String) : ℕ :=
  (tl.map (fun g => occGroup g q b)).sum

/-- Stated from the claim: the total number of instructions with gate name
`b` targeting qubit `q` across all circuits in all groups. -/
def specGateCount (groups : List (List QuantumCircuit)) (q : ℕ) (b : String) : ℕ :=
  (groups.map (fun cs =>
    (cs.map (fun c =>
      (c.data.filter (fun ins => ins.name == b && ins.qubits.contains q)).length)).sum)).sum

/-- `basis_ind = {basis[i]: i for i in range(len(basis))}` — a later entry
overwrites an earlier one, so reading the reversed insertion list first
models the dict exactly. -/
def basis_ind (basis : List String) : List (String × ℕ) :=
  (basis.enum.map (fun p => (p.2, p.1))).reverse

/-- `ngates[i][qind][g] += 1` on one experiment's matrix (out-of-range
indices never occur in the source; `List.set` models the in-place write). -/
def incrMat (m : List (List ℕ)) (r c : ℕ) : List (List ℕ) :=
  m.set r (((m.getD r []).set c ((m.getD r []).getD c 0 + 1)))

/-- `for qind, qubit in enumerate(qubits): if qubit in instr.qubits: ngates[i][qind][col] += 1`. -/
def rowsUpdate : List ℕ → ℕ → List ℕ → ℕ → List (List ℕ) → List (List ℕ)
  | [], _, _, _, m => m
  | qb :: rest, qind, iqs, col, m =>
      rowsUpdate rest (qind + 1) iqs col (if qb ∈ iqs then incrMat m qind col else m)

/-- The per-experiment loop of `count_gates`, starting from the
`np.zeros([len(qubits), len(basis)])` slice of this experiment. -/
def count_exp (basis : List String) (qubits : List ℕ) (e : QasmExperiment) : List (List ℕ) :=
  e.instructions.foldl
    (fun m ins =>
      if ins.name ∈ basis then
        rowsUpdate qubits 0 ins.qubits ((lookupVal ins.name (basis_ind basis)).getD 0) m
      else m)
    (List.replicate qubits.length (List.replicate basis.length 0))

/-- `count_gates(qobj, basis, qubits)`: the n x l x m array of gate counts. -/
def count_gates (qobj : QasmQobj) (basis : List String) (qubits : List ℕ) :
    List (List (List ℕ)) :=
  qobj.experiments.map (fun e => count_exp basis qubits e)

/-- Entry `[i][r][c]` of the count array. -/
def get3 (a : List (List (List ℕ))) (i r c : ℕ) : ℕ :=
  ((a.getD i []).getD r []).getD c 0

/-- Stated from the claim: the number of instructions in one experiment
whose name equals `b` and whose target-qubit list contains `q`. -/
def specInstrCount (e : QasmExperiment) (b : String) (q : ℕ) : ℕ :=
  (e.instructions.filter (fun ins => ins.name == b && ins.qubits.contains q)).length

/-- An L x M matrix given by its entry function (the reasoning view of the
`np.zeros` array `count_gates` fills in). -/
def mkMat (L M : ℕ) (f : ℕ → ℕ → ℕ) : List (List ℕ) :=
  (List.range L).map (fun r => (List.range M).map (fun c => f r c))

/-- Entry `[r][c]` of a matrix. -/
def getMat (m : List (List ℕ)) (r c : ℕ) : ℕ :=
  (m.getD r []).getD c 0

/-- `coherence_limit(nQ, T1_list, T2_list, gatelen)`.  `T1_list=None` (the
declared default) is kept as `Option`: `np.array(None)` is a 0-dimensional
array, and both `2*T1` (elementwise arithmetic with `None`) and `len(T1)`
on it raise `TypeError` before anything else runs.  With a real list,
`T2 = 2*T1` when `T2_list` is omitted, the lengths are validated against
`nQ`, and only `nQ = 1` and `nQ = 2` produce a value. -/
noncomputable def coherence_limit (nQ : ℕ) (T1_list T2_list : Option (List ℝ))
    (gatelen : ℝ) : Except PyError ℝ :=
  match T1_list with
  | none => .error (.typeError "len() of unsized object")
  | some T1 =>
    let T2 : List ℝ :=
      match T2_list with
      | none => T1.map (fun t => 2 * t)
      | some l => l
    if T1.length ≠ nQ ∨ T2.length ≠ nQ then
      .error (.valueError "T1 and/or T2 not the right length")
    else if nQ = 1 then
      .ok (0.5 * (1 - 2/3 * Real.exp (-gatelen / T2.getD 0 0)
                    - 1/3 * Real.exp (-gatelen / T1.getD 0 0)))
    else if nQ = 2 then
      let T1factor : ℝ :=
        1/15 * Real.exp (-gatelen / T1.getD 0 0) + 1/15 * Real.exp (-gatelen / T1.getD 1 0)
          + 1/15 * Real.exp (-gatelen * (1 / T1.getD 0 0 + 1 / T1.getD 1 0))
      let T2factor : ℝ :=
        2/15 * (Real.exp (-gatelen / T2.getD 0 0)
                  + Real.exp (-gatelen * (1 / T2.getD 0 0 + 1 / T1.getD 1 0)))
          + 2/15 * (Real.exp (-gatelen / T2.getD 1 0)
                  + Real.exp (-gatelen * (1 / T2.getD 1 0 + 1 / T1.getD 0 0)))
          + 4/15 * Real.exp (-gatelen * (1 / T2.getD 0 0 + 1 / T2.getD 1 0))
      .ok (0.75 * (1 - T1factor - T2factor))
    else .error (.valueError "Not a valid number of qubits")

/-- Stated from the spec: for 1 qubit,
`error = 0.5 * (1 - (2/3) exp(-duration/T2) - (1/3) exp(-duration/T1))`. -/
noncomputable def coherence_err_1Q (t1 t2 g : ℝ) : ℝ :=
  0.5 * (1 - 2/3 * Real.exp (-(g / t2)) - 1/3 * Real.exp (-(g / t1)))

/-- Stated from the spec: for 2 qubits, the closed-form two-qubit
depolarizing-channel fidelity expression, a weighted sum of single-qubit
decay terms (weight 1/15), cross terms (weight 2/15) and joint-decay terms
(weights 1/15 and 4/15), with `error = 0.75 * (1 - T1 terms - T2 terms)`. -/
noncomputable def coherence_err_2Q (t1a t1b t2a t2b g : ℝ) : ℝ :=
  0.75 * (1
    - (1/15 * Real.exp (-(g / t1a)) + 1/15 * Real.exp (-(g / t1b))
        + 1/15 * Real.exp (-(g / t1a) - g / t1b))
    - (2/15 * Real.exp (-(g / t2a)) + 2/15 * Real.exp (-(g / t2a) - g / t1b)
        + 2/15 * Real.exp (-(g / t2b)) + 2/15 * Real.exp (-(g / t2b) - g / t1a)
        + 4/15 * Real.exp (-(g / t2a) - g / t2b)))

/-- The accumulator loop of `twoQ_clifford_error`: `alpha1Q = [1.0, 1.0]`,
`alpha2Q = 1.0`, and for each gate either
`alpha2Q *= (1 - 4/3*err)**ngate` (qubit label `-1`) or
`alpha1Q[label] *= (1 - 2*err)**ngate`.  On the documented label domain
`{0, 1, -1}` the final branch is exactly `alpha1Q[1]`. -/
def twoQ_loop : List ℕ → List ℤ → List ℚ → ℚ → ℚ → ℚ → ℚ × ℚ × ℚ
  | n :: ns, q :: qs, e :: es, a0, a1, a2 =>
      if q = -1 then twoQ_loop ns qs es a0 a1 (a2 * (1 - 4/3 * e) ^ n)
      else if q = 0 then twoQ_loop ns qs es (a0 * (1 - 2 * e) ^ n) a1 a2
      else twoQ_loop ns qs es a0 (a1 * (1 - 2 * e) ^ n) a2
  | _, _, _, a0, a1, a2 => (a0, a1, a2)

/-- `twoQ_clifford_error(ngates, gate_qubit, gate_err)`:
`alpha2Q_cliff = 1/5*(np.sum(alpha1Q) + 3*np.prod(alpha1Q))*alpha2Q` and
the result is `(1 - alpha2Q_cliff)*3/4`.  Gate counts are natural numbers
(the `**ngate` powers become monoid powers over `ℚ`). -/
def twoQ_clifford_error (ngates : List ℕ) (gate_qubit : List ℤ) (gate_err : List ℚ) : ℚ :=
  let r := twoQ_loop ngates gate_qubit gate_err 1 1 1
  (1 - 1/5 * (r.1 + r.2.1 + 3 * (r.1 * r.2.1)) * r.2.2) * 3 / 4

/-- The list of (count, label, error) triples the three parallel lists carry. -/
def gateTriples (ng : List ℕ) (gq : List ℤ) (ge : List ℚ) : List (ℕ × ℤ × ℚ) :=
  ng.zip (gq.zip ge)

/-- Stated from the spec: the single-qubit depolarizing-survival accumulator
for qubit label `j`, the product of `(1 - 2 err)^count` over the gates with
that label. -/
def alpha1Q_spec (j : ℤ) (ng : List ℕ) (gq : List ℤ) (ge : List ℚ) : ℚ :=
  (((gateTriples ng gq ge).filter (fun t => t.2.1 == j)).map
    (fun t => (1 - 2 * t.2.2) ^ t.1)).prod

/-- Stated from the spec: the two-qubit survival accumulator, the product of
`(1 - 4/3 err)^count` over the gates labelled `-1`. -/
def alpha2Q_spec (ng : List ℕ) (gq : List ℤ) (ge : List ℚ) : ℚ :=
  (((gateTriples ng gq ge).filter (fun t => t.2.1 == -1)).map
    (fun t => (1 - 4/3 * t.2.2) ^ t.1)).prod

/-- Error-rate bound under which every depolarizing factor of
`twoQ_clifford_error` stays nonnegative: `err <= 3/4` for the two-qubit
gate (label `-1`) and `err <= 1/2` for a single-qubit gate. -/
def errOKb (q : ℤ) (e : ℚ) : Bool :=
  decide (0 ≤ e) && (if q = -1 then decide (e ≤ 3/4) else decide (e ≤ 1/2))

/-- `errOKb` holding at every position of the two parallel lists. -/
def errsOK : List ℤ → List ℚ → Bool
  | [], [] => true
  | q :: qs, e :: es => errOKb q e && errsOK qs es
  | _, _ => false

/-- Pointwise order on equal-length error lists. -/
def pointLe : List ℚ → List ℚ → Bool
  | [], [] => true
  | e :: es, f :: fs => decide (e ≤ f) && pointLe es fs
  | _, _ => false

/-- Every key pair of the dictionary lies in the tracked qubit and basis
sets (the invariant the accumulation of `gates_per_clifford` maintains
from its initialisation). -/
def KeysSub (qubits : List ℕ) (basis : List String) (d : GateDict) : Prop :=
  ∀ q b, (lookup2 d q b).isSome = true → q ∈ qubits ∧ b ∈ basis

end RB



namespace RB

theorem lookupVal_updateVal {α β : Type} [DecidableEq α] (k k' : α) (f : β → β)
    (l : List (α × β)) :
    lookupVal k' (updateVal k f l) =
      if k' = k then (lookupVal k' l).map f else lookupVal k' l := by
  induction l with
  | nil => simp [updateVal, lookupVal]
  | cons hd tl ih =>
    obtain ⟨a, v⟩ := hd
    by_cases hak : a = k <;> by_cases hak' : a = k'
    · subst hak
      subst hak'
      simp [updateVal, lookupVal]
    · subst hak
      simp [updateVal, lookupVal, hak', Ne.symm hak']
    · subst hak'
      simp [updateVal, lookupVal, hak]
    · simp [updateVal, lookupVal, hak, hak', ih]

theorem lookup2_updatePair (d : GateDict) (q q' : ℕ) (b b' : String) (g : ℚ → ℚ) :
    lookup2 (updateVal q (updateVal b g) d) q' b' =
      if q' = q ∧ b' = b then (lookup2 d q' b').map g else lookup2 d q' b' := by
  unfold lookup2
  rw [lookupVal_updateVal]
  by_cases h1 : q' = q
  · subst h1
    rw [if_pos rfl]
    cases hm : lookupVal q' d with
    | none => simp
    | some m =>
      simp only [Option.map_some', Option.some_bind]
      rw [lookupVal_updateVal]
      by_cases h2 : b' = b
      · simp [h2]
      · simp [h2]
  · simp [h1]

theorem isSome_lookup2_updatePair (d : GateDict) (q q' : ℕ) (b b' : String) (g : ℚ → ℚ) :
    (lookup2 (updateVal q (updateVal b g) d) q' b').isSome = (lookup2 d q' b').isSome := by
  rw [lookup2_updatePair]
  split
  · cases lookup2 d q' b' <;> rfl
  · rfl

theorem lookup2_incr (d : GateDict) (q q' : ℕ) (b b' : String) :
    lookup2 (incr d q b) q' b' =
      if q' = q ∧ b' = b then (lookup2 d q' b').map (fun v => v + 1)
      else lookup2 d q' b' := by
  unfold incr
  exact lookup2_updatePair d q q' b b' (fun v => v + 1)

theorem lookup2_foldl_incr (qs : List ℕ) (nm : String) (d : GateDict) (q : ℕ) (b : String) :
    lookup2 (qs.foldl (fun d x => incr d x nm) d) q b =
      (lookup2 d q b).map
        (fun v => v + (if nm = b then ((qs.count q : ℕ) : ℚ) else 0)) := by
  induction qs generalizing d with
  | nil => cases h : lookup2 d q b <;> simp [h]
  | cons x xs ih =>
    rw [List.foldl_cons, ih, lookup2_incr]
    by_cases hq : q = x
    · subst hq
      by_cases hb : b = nm
      · subst hb
        rw [if_pos (show q = q ∧ b = b from ⟨rfl, rfl⟩), List.count_cons_self]
        cases h : lookup2 d q b with
        | none => simp
        | some v =>
          simp
          ring
      · have hb' : ¬(nm = b) := fun h => hb h.symm
        rw [if_neg (show ¬(q = q ∧ b = nm) from fun hc => hb hc.2)]
        simp [hb']
    · rw [if_neg (show ¬(q = x ∧ b = nm) from fun hc => hq hc.1),
        List.count_cons_of_ne hq]

theorem lookup2_countInstr (d : GateDict) (ins : Instruction) (q : ℕ) (b : String) :
    lookup2 (countInstr d ins) q b =
      (lookup2 d q b).map (fun v => v + ((occInstr ins q b : ℕ) : ℚ)) := by
  unfold countInstr occInstr
  rw [lookup2_foldl_incr]
  by_cases h : ins.name = b <;> simp [h]

theorem lookup2_foldl_countInstr (l : List Instruction) (d : GateDict) (q : ℕ) (b : String) :
    lookup2 (l.foldl countInstr d) q b =
      (lookup2 d q b).map
        (fun v => v + (((l.map (fun ins => occInstr ins q b)).sum : ℕ) : ℚ)) := by
  induction l generalizing d with
  | nil => cases h : lookup2 d q b <;> simp [h]
  | cons ins rest ih =>
    rw [List.foldl_cons, ih, lookup2_countInstr]
    cases h : lookup2 d q b with
    | none => simp
    | some v =>
      simp
      ring

theorem lookup2_countCircuit (d : GateDict) (c : QuantumCircuit) (q : ℕ) (b : String) :
    lookup2 (countCircuit d c) q b =
      (lookup2 d q b).map (fun v => v + ((occCircuit c q b : ℕ) : ℚ)) := by
  unfold countCircuit occCircuit
  exact lookup2_foldl_countInstr c.data d q b

theorem lookup2_foldl_experiments (l : List QasmExperiment) (d : GateDict) (q : ℕ) (b : String) :
    lookup2 (l.foldl (fun d e => e.instructions.foldl countInstr d) d) q b =
      (lookup2 d q b).map
        (fun v => v +
          (((l.map (fun e => (e.instructions.map (fun ins => occInstr ins q b)).sum)).sum : ℕ) : ℚ)) := by
  induction l generalizing d with
  | nil => cases h : lookup2 d q b <;> simp [h]
  | cons e rest ih =>
    rw [List.foldl_cons, ih, lookup2_foldl_countInstr]
    cases h : lookup2 d q b with
    | none => simp
    | some v =>
      simp
      ring

theorem countElems_ok_lookup2 (cs : List CircuitElem) (d d' : GateDict)
    (h : countElems d cs = .ok d') (q : ℕ) (b : String) :
    lookup2 d' q b =
      (lookup2 d q b).map
        (fun v => v + (((cs.map (fun c => occElem c q b)).sum : ℕ) : ℚ)) := by
  induction cs generalizing d with
  | nil =>
    simp only [countElems, Except.ok.injEq] at h
    subst h
    cases hl : lookup2 d q b <;> simp [hl, occElem]
  | cons c rest ih =>
    cases c with
    | qc cc =>
      simp only [countElems] at h
      rw [ih (countCircuit d cc) h, lookup2_countCircuit]
      cases hl : lookup2 d q b with
      | none => simp
      | some v =>
        simp [occElem]
        ring
    | other => simp [countElems] at h

theorem countElems_error_iff (cs : List CircuitElem) (d : GateDict) (e : PyError) :
    countElems d cs = .error e ↔
      e = PyError.typeError "Input object is not QuantumCircuit." ∧ CircuitElem.other ∈ cs := by
  induction cs generalizing d with
  | nil => simp [countElems]
  | cons c rest ih =>
    cases c with
    | qc cc => simp [countElems, ih]
    | other => simp [countElems, eq_comm]

theorem countGroups_ok_lookup2 (tl : List CircuitGroup) (d d' : GateDict)
    (h : countGroups d tl = .ok d') (q : ℕ) (b : String) :
    lookup2 d' q b = (lookup2 d q b).map (fun v => v + ((occTotal tl q b : ℕ) : ℚ)) := by
  induction tl generalizing d with
  | nil =>
    simp only [countGroups, Except.ok.injEq] at h
    subst h
    cases hl : lookup2 d q b <;> simp [hl, occTotal]
  | cons g rest ih =>
    cases g with
    | qobj j =>
      simp only [countGroups] at h
      rw [ih _ h, lookup2_foldl_experiments]
      cases hl : lookup2 d q b with
      | none => simp
      | some v =>
        simp [occTotal, occGroup]
        ring
    | circuits cs =>
      simp only [countGroups] at h
      cases hce : countElems d cs with
      | ok dm =>
        rw [hce] at h
        rw [ih dm h, countElems_ok_lookup2 cs d dm hce]
        cases hl : lookup2 d q b with
        | none => simp
        | some v =>
          simp [occTotal, occGroup]
          ring
      | error e =>
        rw [hce] at h
        exact absurd h (by simp)

theorem countElems_error_of_mem (cs : List CircuitElem) (d : GateDict)
    (h : CircuitElem.other ∈ cs) :
    countElems d cs = .error (.typeError "Input object is not QuantumCircuit.") := by
  induction cs generalizing d with
  | nil => cases h
  | cons c rest ih =>
    cases c with
    | qc cc =>
      have hr : CircuitElem.other ∈ rest := by
        rcases List.mem_cons.mp h with h1 | h1
        · cases h1
        · exact h1
      simp [countElems, ih _ hr]
    | other => simp [countElems]

theorem countGroups_error_iff (tl : List CircuitGroup) (d : GateDict) (e : PyError) :
    countGroups d tl = .error e ↔
      e = PyError.typeError "Input object is not QuantumCircuit." ∧
        ∃ cs, CircuitGroup.circuits cs ∈ tl ∧ CircuitElem.other ∈ cs := by
  induction tl generalizing d with
  | nil => simp [countGroups]
  | cons g rest ih =>
    cases g with
    | qobj j =>
      simp only [countGroups]
      rw [ih]
      constructor
      · rintro ⟨he, cs, hmem, hother⟩
        exact ⟨he, cs, List.mem_cons_of_mem _ hmem, hother⟩
      · rintro ⟨he, cs, hmem, hother⟩
        rcases List.mem_cons.mp hmem with hg | hmem'
        · cases hg
        · exact ⟨he, cs, hmem', hother⟩
    | circuits cs =>
      simp only [countGroups]
      cases hce : countElems d cs with
      | ok dm =>
        simp only [hce]
        rw [ih]
        constructor
        · rintro ⟨he, cs', hm, ho⟩
          exact ⟨he, cs', List.mem_cons_of_mem _ hm, ho⟩
        · rintro ⟨he, cs', hm, ho⟩
          rcases List.mem_cons.mp hm with hg | hm'
          · have hcc : cs' = cs := by injection hg
            rw [hcc] at ho
            exact absurd (countElems_error_of_mem cs d ho) (by simp [hce])
          · exact ⟨he, cs', hm', ho⟩
      | error e' =>
        simp only [hce, Except.error.injEq]
        have h2 := (countElems_error_iff cs d e').mp hce
        constructor
        · rintro rfl
          exact ⟨h2.1, cs, List.mem_cons_self _ _, h2.2⟩
        · rintro ⟨he, -⟩
          rw [h2.1, he]

theorem lookupVal_map_self {α β : Type} [DecidableEq α] (l : List α) (g : α → β) (k : α) :
    lookupVal k (l.map (fun a => (a, g a))) = if k ∈ l then some (g k) else none := by
  induction l with
  | nil => simp [lookupVal]
  | cons a rest ih =>
    by_cases hak : a = k
    · subst hak
      simp [lookupVal]
    · simp [lookupVal, hak, Ne.symm hak, ih, List.mem_cons]

theorem lookup2_initDict (qubits : List ℕ) (basis : List String) (q : ℕ) (b : String) :
    lookup2 (initDict qubits basis) q b =
      if q ∈ qubits ∧ b ∈ basis then some 0 else none := by
  unfold initDict lookup2
  rw [lookupVal_map_self]
  by_cases hq : q ∈ qubits
  · rw [if_pos (List.mem_dedup.mpr hq)]
    simp only [Option.some_bind]
    rw [lookupVal_map_self]
    by_cases hb : b ∈ basis
    · rw [if_pos (List.mem_dedup.mpr hb), if_pos ⟨hq, hb⟩]
    · rw [if_neg (fun hc => hb (List.mem_dedup.mp hc)), if_neg (fun hc => hb hc.2)]
  · rw [if_neg (fun hc => hq (List.mem_dedup.mp hc)), if_neg (fun hc => hq hc.1)]
    rfl

theorem lookup2_foldl_divRow (bs : List String) (hb : bs.Nodup) (d : GateDict) (q0 : ℕ)
    (t : ℚ) (q : ℕ) (b : String) :
    lookup2 (bs.foldl (fun d b' => updateVal q0 (updateVal b' (fun v => v / t)) d) d) q b =
      if q = q0 ∧ b ∈ bs then (lookup2 d q b).map (fun v => v / t) else lookup2 d q b := by
  revert hb
  induction bs generalizing d with
  | nil =>
    intro hb
    simp
  | cons b0 rest ih =>
    intro hb
    have hn := List.nodup_cons.mp hb
    rw [List.foldl_cons, ih _ hn.2, lookup2_updatePair]
    by_cases hq : q = q0
    · by_cases hb0 : b = b0
      · by_cases hbr : b ∈ rest
        · exact absurd (hb0 ▸ hbr) hn.1
        · subst hq
          subst hb0
          simp [hbr]
      · by_cases hbr : b ∈ rest <;> simp [hq, hb0, hbr]
    · simp [hq]

theorem lookup2_divAll_of_nodup (qs : List ℕ) (bs : List String) (hq : qs.Nodup)
    (hb : bs.Nodup) (d : GateDict) (t : ℚ) (q : ℕ) (b : String) :
    lookup2 (divAll d qs bs t) q b =
      if q ∈ qs ∧ b ∈ bs then (lookup2 d q b).map (fun v => v / t) else lookup2 d q b := by
  unfold divAll
  revert hq
  induction qs generalizing d with
  | nil =>
    intro hq
    simp
  | cons q0 rest ih =>
    intro hq
    have hn := List.nodup_cons.mp hq
    rw [List.foldl_cons, ih _ hn.2, lookup2_foldl_divRow bs hb]
    by_cases hq0 : q = q0
    · subst hq0
      by_cases hbb : b ∈ bs <;> simp [hn.1, hbb]
    · by_cases hqr : q ∈ rest <;> by_cases hbb : b ∈ bs <;> simp [hq0, hqr, hbb]

theorem isSome_lookup2_foldl_divRow (bs : List String) (d : GateDict) (q0 : ℕ) (t : ℚ)
    (q : ℕ) (b : String) :
    (lookup2 (bs.foldl (fun d b' => updateVal q0 (updateVal b' (fun v => v / t)) d) d) q b).isSome
      = (lookup2 d q b).isSome := by
  induction bs generalizing d with
  | nil => rfl
  | cons b0 rest ih =>
    rw [List.foldl_cons, ih, isSome_lookup2_updatePair]

theorem isSome_lookup2_divAll (qs : List ℕ) (bs : List String) (d : GateDict) (t : ℚ)
    (q : ℕ) (b : String) :
    (lookup2 (divAll d qs bs t) q b).isSome = (lookup2 d q b).isSome := by
  unfold divAll
  induction qs generalizing d with
  | nil => rfl
  | cons q0 rest ih =>
    rw [List.foldl_cons, ih, isSome_lookup2_foldl_divRow]

theorem lookup2_foldl_divRow_zero (bs : List String) (d : GateDict) (q0 : ℕ) (t : ℚ)
    (q : ℕ) (b : String) (h : lookup2 d q b = some 0) :
    lookup2 (bs.foldl (fun d b' => updateVal q0 (updateVal b' (fun v => v / t)) d) d) q b
      = some 0 := by
  induction bs generalizing d with
  | nil => exact h
  | cons b0 rest ih =>
    rw [List.foldl_cons]
    apply ih
    rw [lookup2_updatePair]
    split
    · rw [h]
      simp
    · exact h

theorem lookup2_divAll_zero (qs : List ℕ) (bs : List String) (d : GateDict) (t : ℚ)
    (q : ℕ) (b : String) (h : lookup2 d q b = some 0) :
    lookup2 (divAll d qs bs t) q b = some 0 := by
  unfold divAll
  induction qs generalizing d with
  | nil => exact h
  | cons q0 rest ih =>
    rw [List.foldl_cons]
    exact ih _ (lookup2_foldl_divRow_zero bs d q0 t q b h)

theorem occInstr_of_nodup (ins : Instruction) (q : ℕ) (b : String)
    (hnd : ins.qubits.Nodup) :
    occInstr ins q b = if ins.name == b && ins.qubits.contains q then 1 else 0 := by
  unfold occInstr
  by_cases hname : ins.name = b
  · by_cases hq : q ∈ ins.qubits
    · simp [hname, hq, List.count_eq_one_of_mem hnd hq]
    · simp [hname, hq, List.count_eq_zero_of_not_mem hq]
  · simp [hname]

theorem occList_of_nodup (l : List Instruction) (q : ℕ) (b : String)
    (hnd : ∀ ins ∈ l, ins.qubits.Nodup) :
    (l.map (fun ins => occInstr ins q b)).sum =
      (l.filter (fun ins => ins.name == b && ins.qubits.contains q)).length := by
  induction l with
  | nil => rfl
  | cons ins rest ih =>
    have h1 := occInstr_of_nodup ins q b (hnd ins (List.mem_cons_self _ _))
    have h2 := ih (fun i hi => hnd i (List.mem_cons_of_mem _ hi))
    rw [List.map_cons, List.sum_cons, h1, h2, List.filter_cons]
    cases hcond : (ins.name == b && ins.qubits.contains q) <;> simp [hcond, Nat.add_comm]

theorem occCircuit_of_nodup (c : QuantumCircuit) (q : ℕ) (b : String)
    (hnd : ∀ ins ∈ c.data, ins.qubits.Nodup) :
    occCircuit c q b =
      (c.data.filter (fun ins => ins.name == b && ins.qubits.contains q)).length :=
  occList_of_nodup c.data q b hnd

theorem occTotal_eq_specGateCount (groups : List (List QuantumCircuit)) (q : ℕ) (b : String)
    (hnd : ∀ g ∈ groups, ∀ c ∈ g, ∀ ins ∈ c.data, ins.qubits.Nodup) :
    occTotal (groups.map (fun g => CircuitGroup.circuits (g.map CircuitElem.qc))) q b
      = specGateCount groups q b := by
  unfold occTotal specGateCount
  rw [List.map_map]
  congr 1
  apply List.map_congr_left
  intro g hg
  simp only [Function.comp, occGroup, List.map_map]
  congr 1
  apply List.map_congr_left
  intro c hc
  simp only [Function.comp, occElem]
  exact occCircuit_of_nodup c q b (hnd g hg c hc)

theorem countGroups_allQC_ok (groups : List (List QuantumCircuit)) (d : GateDict) :
    ∃ d', countGroups d (groups.map (fun g => CircuitGroup.circuits (g.map CircuitElem.qc)))
      = .ok d' := by
  cases hres : countGroups d (groups.map (fun g => CircuitGroup.circuits (g.map CircuitElem.qc))) with
  | ok d' => exact ⟨d', rfl⟩
  | error e =>
    obtain ⟨-, cs, hmem, hother⟩ := (countGroups_error_iff _ _ _).mp hres
    obtain ⟨g, -, hgc⟩ := List.mem_map.mp hmem
    have : CircuitElem.other ∈ g.map CircuitElem.qc := by
      have hcs : g.map CircuitElem.qc = cs := by injection hgc
      rw [hcs]
      exact hother
    obtain ⟨c, -, hcq⟩ := List.mem_map.mp this
    cases hcq

/-- C1 (amended): for a non-empty list of circuit groups, each a list of
`QuantumCircuit`, with duplicate-free basis and qubit lists and circuits
whose instructions target distinct qubits, `gates_per_clifford` returns,
for each tracked `(qubit, gate)` pair, the total number of instructions
with that gate name targeting that qubit across all circuits of all
groups, divided by (number of groups) * sum of (length + 1) over the
Clifford-length sequence. -/
theorem gates_per_clifford_rate (groups : List (List QuantumCircuit)) (lens : List ℕ)
    (basis : List String) (qubits : List ℕ) (q : ℕ) (b : String)
    (hne : groups ≠ []) (hq : qubits.Nodup) (hb : basis.Nodup)
    (hnd : ∀ g ∈ groups, ∀ c ∈ g, ∀ ins ∈ c.data, ins.qubits.Nodup)
    (hqm : q ∈ qubits) (hbm : b ∈ basis) :
    ∃ d, gates_per_clifford (groups.map (fun g => CircuitGroup.circuits (g.map CircuitElem.qc)))
        lens basis qubits = .ok d ∧
      lookup2 d q b = some ((specGateCount groups q b : ℚ) /
        ((groups.length : ℚ) * (((lens.map (fun l => l + 1)).sum : ℕ) : ℚ))) := by
  obtain ⟨d0, hok⟩ := countGroups_allQC_ok groups (initDict qubits basis)
  have hlen : (groups.map (fun g => CircuitGroup.circuits (g.map CircuitElem.qc))).length
      = groups.length := List.length_map _ _
  have hempty : (groups.map (fun g => CircuitGroup.circuits (g.map CircuitElem.qc))).isEmpty
      = false := by
    cases groups with
    | nil => exact absurd rfl hne
    | cons g gs => rfl
  refine ⟨divAll d0 qubits basis
      (((groups.map (fun g => CircuitGroup.circuits (g.map CircuitElem.qc))).length : ℚ) *
        (((lens.map (fun l => l + 1)).sum : ℕ) : ℚ)), ?_, ?_⟩
  · unfold gates_per_clifford
    simp only [hempty, hok, Bool.false_eq_true, if_false]
  · rw [lookup2_divAll_of_nodup qubits basis hq hb]
    rw [if_pos ⟨hqm, hbm⟩]
    rw [countGroups_ok_lookup2 _ _ _ hok, lookup2_initDict, if_pos ⟨hqm, hbm⟩]
    rw [occTotal_eq_specGateCount groups q b hnd, hlen]
    simp
/-- Witness for C1's amended theorem at the spec's example: one circuit
group, lengths [1, 20, 50, 100], one tracked instruction per circuit,
rate 4/175. -/
theorem gates_per_clifford_rate_witness :
    ∃ d, gates_per_clifford
        ([[⟨[⟨"x", [0]⟩]⟩, ⟨[⟨"x", [0]⟩]⟩, ⟨[⟨"x", [0]⟩]⟩, ⟨[⟨"x", [0]⟩]⟩]].map
          (fun g => CircuitGroup.circuits (g.map CircuitElem.qc)))
        [1, 20, 50, 100] ["x"] [0] = .ok d ∧
      lookup2 d 0 "x" = some (4 / 175) := by
  obtain ⟨d, h1, h2⟩ := gates_per_clifford_rate
    [[⟨[⟨"x", [0]⟩]⟩, ⟨[⟨"x", [0]⟩]⟩, ⟨[⟨"x", [0]⟩]⟩, ⟨[⟨"x", [0]⟩]⟩]] [1, 20, 50, 100] ["x"] [0] 0 "x"
    (by simp) (by simp) (by simp) (by decide) (by simp) (by simp)
  refine ⟨d, h1, ?_⟩
  rw [h2]
  norm_num [specGateCount]

/-- C1 as stated is false for a qubit list with a duplicate entry: with
qubit list [0, 0], one group, one circuit with one tracked instruction and
length list [1], the cell holds 1/4 (the Python dict keeps one key 0 and
the normalisation loop divides it once per list entry) while the claimed
count/denominator formula gives 1/2. -/
theorem gates_per_clifford_dup_qubits_cex :
    gates_per_clifford [CircuitGroup.circuits [CircuitElem.qc ⟨[⟨"x", [0]⟩]⟩]] [1] ["x"] [0, 0]
        = .ok [(0, [("x", 1/4)])] ∧
      (specGateCount [[⟨[⟨"x", [0]⟩]⟩]] 0 "x" : ℚ) /
        (([CircuitGroup.circuits [CircuitElem.qc ⟨[⟨"x", [0]⟩]⟩]].length : ℚ) *
          ((([1].map (fun l => l + 1)).sum : ℕ) : ℚ)) = 1 / 2 ∧
      (1 / 4 : ℚ) ≠ 1 / 2 := by
  refine ⟨?_, ?_, by norm_num⟩
  · norm_num [gates_per_clifford, countGroups, countElems, countCircuit, countInstr, incr,
      initDict, divAll, updateVal, List.dedup]
  · norm_num [specGateCount]

theorem countGroups_error_of_bad (tl : List CircuitGroup) (d : GateDict)
    (h : ∃ cs, CircuitGroup.circuits cs ∈ tl ∧ CircuitElem.other ∈ cs) :
    countGroups d tl = .error (.typeError "Input object is not QuantumCircuit.") := by
  induction tl generalizing d with
  | nil =>
    obtain ⟨cs, hm, -⟩ := h
    cases hm
  | cons g rest ih =>
    obtain ⟨cs, hm, ho⟩ := h
    cases g with
    | qobj j =>
      have hrest : CircuitGroup.circuits cs ∈ rest := by
        rcases List.mem_cons.mp hm with h1 | h1
        · cases h1
        · exact h1
      simp only [countGroups]
      exact ih _ ⟨cs, hrest, ho⟩
    | circuits cs0 =>
      simp only [countGroups]
      by_cases hin : CircuitElem.other ∈ cs0
      · simp [countElems_error_of_mem cs0 d hin]
      · cases hce : countElems d cs0 with
        | ok dm =>
          have hrest : CircuitGroup.circuits cs ∈ rest := by
            rcases List.mem_cons.mp hm with h1 | h1
            · have hcc : cs = cs0 := by injection h1
              exact absurd (hcc ▸ ho) hin
            · exact h1
          simp only [hce]
          exact ih _ ⟨cs, hrest, ho⟩
        | error e' =>
          have h2 := (countElems_error_iff cs0 d e').mp hce
          exact absurd h2.2 hin

/-- C8: `gates_per_clifford` raises the input-type error exactly when some
circuit-group that is a plain list contains an element that is not a
`QuantumCircuit`; in particular no such error is raised when every group
is a `QasmQobj` or a list of `QuantumCircuit` objects. -/
theorem gates_per_clifford_typeError_iff (tl : List CircuitGroup) (lens : List ℕ)
    (basis : List String) (qubits : List ℕ) :
    gates_per_clifford tl lens basis qubits
        = .error (.typeError "Input object is not QuantumCircuit.") ↔
      ∃ cs, CircuitGroup.circuits cs ∈ tl ∧ CircuitElem.other ∈ cs := by
  unfold gates_per_clifford
  cases tl with
  | nil => simp
  | cons g rest =>
    simp only [List.isEmpty_cons, Bool.false_eq_true, if_false]
    cases hres : countGroups (initDict qubits basis) (g :: rest) with
    | ok d =>
      simp only [hres]
      constructor
      · intro h
        exact absurd h (by simp)
      · intro hbad
        have hbd := countGroups_error_of_bad (g :: rest) (initDict qubits basis) hbad
        rw [hres] at hbd
        exact absurd hbd (by simp)
    | error e =>
      have h2 := (countGroups_error_iff _ _ _).mp hres
      simp only [hres, Except.error.injEq]
      exact ⟨fun _ => h2.2, fun _ => h2.1⟩

/-- Witness for C8 at a concrete input: a single group holding one
non-circuit object raises the input-type error. -/
theorem gates_per_clifford_typeError_witness :
    gates_per_clifford [CircuitGroup.circuits [CircuitElem.other]] [1] ["x"] [0]
      = .error (.typeError "Input object is not QuantumCircuit.") :=
  (gates_per_clifford_typeError_iff [CircuitGroup.circuits [CircuitElem.other]] [1] ["x"] [0]).mpr
    ⟨[CircuitElem.other], by simp, by simp⟩

theorem updateVal_of_lookup_none {α β : Type} [DecidableEq α] (k : α) (f : β → β)
    (l : List (α × β)) (h : lookupVal k l = none) : updateVal k f l = l := by
  induction l with
  | nil => rfl
  | cons hd tl ih =>
    obtain ⟨a, v⟩ := hd
    by_cases hak : a = k
    · subst hak
      simp [lookupVal] at h
    · simp only [lookupVal, hak, if_false] at h
      simp [updateVal, hak, ih h]

theorem updateVal_of_fix {α β : Type} [DecidableEq α] (k : α) (f : β → β)
    (l : List (α × β)) (v : β) (h : lookupVal k l = some v) (hf : f v = v) :
    updateVal k f l = l := by
  induction l with
  | nil => rfl
  | cons hd tl ih =>
    obtain ⟨a, w⟩ := hd
    by_cases hak : a = k
    · subst hak
      simp [lookupVal] at h
      subst h
      simp [updateVal, hf]
    · simp only [lookupVal, hak, if_false] at h
      simp [updateVal, hak, ih h]

theorem incr_eq_self (d : GateDict) (q : ℕ) (b : String) (h : lookup2 d q b = none) :
    incr d q b = d := by
  unfold incr
  unfold lookup2 at h
  cases hq : lookupVal q d with
  | none => exact updateVal_of_lookup_none q _ d hq
  | some m =>
    rw [hq, Option.some_bind] at h
    exact updateVal_of_fix q _ d m hq (updateVal_of_lookup_none b _ m h)

theorem foldl_incr_eq_self (l : List ℕ) (nm : String) (d : GateDict)
    (h : ∀ x ∈ l, lookup2 d x nm = none) :
    l.foldl (fun d x => incr d x nm) d = d := by
  induction l with
  | nil => rfl
  | cons x xs ih =>
    rw [List.foldl_cons, incr_eq_self d x nm (h x (List.mem_cons_self _ _))]
    exact ih (fun y hy => h y (List.mem_cons_of_mem _ hy))

theorem countInstr_eq_self (qubits : List ℕ) (basis : List String) (d : GateDict)
    (ins : Instruction) (hk : KeysSub qubits basis d)
    (hu : ins.name ∉ basis ∨ ∀ x ∈ ins.qubits, x ∉ qubits) : countInstr d ins = d := by
  unfold countInstr
  apply foldl_incr_eq_self
  intro x hx
  cases hres : lookup2 d x ins.name with
  | none => rfl
  | some v =>
    have hmem := hk x ins.name (by rw [hres]; rfl)
    rcases hu with h1 | h1
    · exact absurd hmem.2 h1
    · exact absurd hmem.1 (h1 x hx)

theorem KeysSub_incr (qubits : List ℕ) (basis : List String) (d : GateDict) (q : ℕ)
    (b : String) (hk : KeysSub qubits basis d) : KeysSub qubits basis (incr d q b) := by
  intro q' b' hs
  apply hk
  rwa [incr, isSome_lookup2_updatePair] at hs

theorem KeysSub_foldl_incr (qubits : List ℕ) (basis : List String) (l : List ℕ) (nm : String)
    (d : GateDict) (hk : KeysSub qubits basis d) :
    KeysSub qubits basis (l.foldl (fun d x => incr d x nm) d) := by
  induction l generalizing d with
  | nil => exact hk
  | cons x xs ih =>
    rw [List.foldl_cons]
    exact ih _ (KeysSub_incr qubits basis d x nm hk)

theorem KeysSub_countInstr (qubits : List ℕ) (basis : List String) (d : GateDict)
    (ins : Instruction) (hk : KeysSub qubits basis d) :
    KeysSub qubits basis (countInstr d ins) :=
  KeysSub_foldl_incr qubits basis ins.qubits ins.name d hk

theorem KeysSub_foldl_countInstr (qubits : List ℕ) (basis : List String)
    (l : List Instruction) (d : GateDict) (hk : KeysSub qubits basis d) :
    KeysSub qubits basis (l.foldl countInstr d) := by
  induction l generalizing d with
  | nil => exact hk
  | cons ins rest ih =>
    rw [List.foldl_cons]
    exact ih _ (KeysSub_countInstr qubits basis d ins hk)

theorem KeysSub_countElems (qubits : List ℕ) (basis : List String) (cs : List CircuitElem)
    (d d' : GateDict) (h : countElems d cs = .ok d') (hk : KeysSub qubits basis d) :
    KeysSub qubits basis d' := by
  induction cs generalizing d with
  | nil =>
    simp only [countElems, Except.ok.injEq] at h
    exact h ▸ hk
  | cons c rest ih =>
    cases c with
    | qc cc =>
      simp only [countElems] at h
      exact ih _ h (KeysSub_foldl_countInstr qubits basis cc.data d hk)
    | other => simp [countElems] at h

theorem KeysSub_countGroups (qubits : List ℕ) (basis : List String) (tl : List CircuitGroup)
    (d d' : GateDict) (h : countGroups d tl = .ok d') (hk : KeysSub qubits basis d) :
    KeysSub qubits basis d' := by
  induction tl generalizing d with
  | nil =>
    simp only [countGroups, Except.ok.injEq] at h
    exact h ▸ hk
  | cons g rest ih =>
    cases g with
    | qobj j =>
      simp only [countGroups] at h
      refine ih _ h ?_
      have : ∀ (es : List QasmExperiment) (d : GateDict), KeysSub qubits basis d →
          KeysSub qubits basis (es.foldl (fun d e => e.instructions.foldl countInstr d) d) := by
        intro es
        induction es with
        | nil => exact fun d hd => hd
        | cons e rest2 ih2 =>
          intro d hd
          rw [List.foldl_cons]
          exact ih2 _ (KeysSub_foldl_countInstr qubits basis e.instructions d hd)
      exact this j.experiments d hk
    | circuits cs =>
      simp only [countGroups] at h
      cases hce : countElems d cs with
      | ok dm =>
        rw [hce] at h
        exact ih _ h (KeysSub_countElems qubits basis cs d dm hce hk)
      | error e =>
        rw [hce] at h
        exact absurd h (by simp)

theorem KeysSub_initDict (qubits : List ℕ) (basis : List String) :
    KeysSub qubits basis (initDict qubits basis) := by
  intro q b hs
  rw [lookup2_initDict] at hs
  by_cases h : q ∈ qubits ∧ b ∈ basis
  · exact h
  · rw [if_neg h] at hs
    cases hs

theorem countElems_append (cs1 cs2 : List CircuitElem) (d : GateDict) :
    countElems d (cs1 ++ cs2) =
      match countElems d cs1 with
      | .ok d' => countElems d' cs2
      | .error e => .error e := by
  induction cs1 generalizing d with
  | nil => rfl
  | cons c rest ih =>
    cases c with
    | qc cc =>
      simp only [List.cons_append, countElems]
      exact ih _
    | other => rfl

theorem countGroups_append (l1 l2 : List CircuitGroup) (d : GateDict) :
    countGroups d (l1 ++ l2) =
      match countGroups d l1 with
      | .ok d' => countGroups d' l2
      | .error e => .error e := by
  induction l1 generalizing d with
  | nil => rfl
  | cons g rest ih =>
    cases g with
    | qobj j =>
      simp only [List.cons_append, countGroups]
      exact ih _
    | circuits cs =>
      simp only [List.cons_append, countGroups]
      cases hce : countElems d cs with
      | ok dm =>
        simp only [hce]
        exact ih dm
      | error e => simp only [hce]

/-- C5: the mapping returned by `gates_per_clifford` has key set exactly
qubits x basis (a cell is present iff its qubit is in the qubit list and
its gate in the basis list), a tracked pair that is never observed holds
the value 0, and inserting an instruction whose gate name is untracked or
whose target qubits are all untracked anywhere in any circuit leaves the
result unchanged. -/
theorem gates_per_clifford_keys (tl : List CircuitGroup) (lens : List ℕ)
    (basis : List String) (qubits : List ℕ) :
    (∀ d, gates_per_clifford tl lens basis qubits = .ok d →
      ∀ q b, ((lookup2 d q b).isSome = true ↔ q ∈ qubits ∧ b ∈ basis) ∧
        (occTotal tl q b = 0 → q ∈ qubits → b ∈ basis → lookup2 d q b = some 0)) ∧
    (∀ gs1 gs2 cs1 cs2 pre post ins,
      (Instruction.name ins ∉ basis ∨ ∀ x ∈ Instruction.qubits ins, x ∉ qubits) →
      gates_per_clifford
          (gs1 ++ CircuitGroup.circuits
            (cs1 ++ CircuitElem.qc ⟨pre ++ ins :: post⟩ :: cs2) :: gs2) lens basis qubits
        = gates_per_clifford
          (gs1 ++ CircuitGroup.circuits (cs1 ++ CircuitElem.qc ⟨pre ++ post⟩ :: cs2) :: gs2)
          lens basis qubits) := by
  constructor
  · intro d hok q b
    unfold gates_per_clifford at hok
    cases tl with
    | nil => simp at hok
    | cons g rest =>
      simp only [List.isEmpty_cons, Bool.false_eq_true, if_false] at hok
      cases hres : countGroups (initDict qubits basis) (g :: rest) with
      | error e =>
        rw [hres] at hok
        exact absurd hok (by simp)
      | ok d0 =>
        rw [hres] at hok
        simp only [Except.ok.injEq] at hok
        subst hok
        constructor
        · rw [isSome_lookup2_divAll]
          rw [countGroups_ok_lookup2 _ _ _ hres q b, lookup2_initDict]
          by_cases hmem : q ∈ qubits ∧ b ∈ basis <;> simp [hmem]
        · intro hocc hq hb
          apply lookup2_divAll_zero
          rw [countGroups_ok_lookup2 _ _ _ hres q b, lookup2_initDict, if_pos ⟨hq, hb⟩, hocc]
          simp
  · intro gs1 gs2 cs1 cs2 pre post ins hu
    have hiter : ∀ (x : CircuitGroup) (l r : List CircuitGroup),
        ((l ++ x :: r).isEmpty) = false := by
      intro x l r
      cases l <;> rfl
    have hcount : countGroups (initDict qubits basis)
        (gs1 ++ CircuitGroup.circuits (cs1 ++ CircuitElem.qc ⟨pre ++ ins :: post⟩ :: cs2) :: gs2)
      = countGroups (initDict qubits basis)
        (gs1 ++ CircuitGroup.circuits (cs1 ++ CircuitElem.qc ⟨pre ++ post⟩ :: cs2) :: gs2) := by
      rw [countGroups_append, countGroups_append]
      cases h0 : countGroups (initDict qubits basis) gs1 with
      | error e => rfl
      | ok d0 =>
        have hk0 : KeysSub qubits basis d0 :=
          KeysSub_countGroups qubits basis gs1 _ d0 h0 (KeysSub_initDict qubits basis)
        simp only [countGroups]
        rw [countElems_append, countElems_append]
        cases h1 : countElems d0 cs1 with
        | error e => rfl
        | ok d1 =>
          have hk1 : KeysSub qubits basis d1 :=
            KeysSub_countElems qubits basis cs1 d0 d1 h1 hk0
          simp only [countElems]
          have hc : countCircuit d1 ⟨pre ++ ins :: post⟩ = countCircuit d1 ⟨pre ++ post⟩ := by
            show (pre ++ ins :: post).foldl countInstr d1 = (pre ++ post).foldl countInstr d1
            rw [List.foldl_append, List.foldl_append, List.foldl_cons]
            rw [countInstr_eq_self qubits basis _ ins
              (KeysSub_foldl_countInstr qubits basis pre d1 hk1) hu]
          rw [hc]
    unfold gates_per_clifford
    rw [hcount, hiter, hiter]
    simp only [Bool.false_eq_true, if_false]
    cases hfin : countGroups (initDict qubits basis)
        (gs1 ++ CircuitGroup.circuits (cs1 ++ CircuitElem.qc ⟨pre ++ post⟩ :: cs2) :: gs2) with
    | error e => simp only [hfin]
    | ok d2 => simp only [hfin, List.length_append, List.length_cons]

/-- Witness for C5 at a concrete input: inserting an untracked
instruction (name "h" on qubit 5) into a tracked computation changes
nothing. -/
theorem gates_per_clifford_keys_witness :
    gates_per_clifford [CircuitGroup.circuits [CircuitElem.qc ⟨[⟨"h", [5]⟩]⟩]] [1] ["x"] [0]
      = gates_per_clifford [CircuitGroup.circuits [CircuitElem.qc ⟨[]⟩]] [1] ["x"] [0] :=
  (gates_per_clifford_keys [] [1] ["x"] [0]).2 [] [] [] [] [] [] ⟨"h", [5]⟩ (Or.inl (by simp))



theorem mkMat_congr (L M : ℕ) (f g : ℕ → ℕ → ℕ)
    (h : ∀ r, r < L → ∀ c, c < M → f r c = g r c) : mkMat L M f = mkMat L M g := by
  unfold mkMat
  apply List.map_congr_left
  intro r hr
  apply List.map_congr_left
  intro c hc
  exact h r (List.mem_range.mp hr) c (List.mem_range.mp hc)

theorem replicate_eq_mkMat (L M : ℕ) :
    List.replicate L (List.replicate M 0) = mkMat L M (fun _ _ => 0) := by
  simp [mkMat, List.map_const']

theorem length_mkMat (L M : ℕ) (f : ℕ → ℕ → ℕ) : (mkMat L M f).length = L := by
  simp [mkMat]

theorem getD_mkMat (L M : ℕ) (f : ℕ → ℕ → ℕ) (r : ℕ) (hr : r < L) :
    (mkMat L M f).getD r [] = (List.range M).map (fun c => f r c) := by
  unfold mkMat
  rw [List.getD_eq_getElem?_getD, List.getElem?_eq_getElem (by simpa using hr)]
  simp

theorem getD_map_range {α : Type} (M : ℕ) (g : ℕ → α) (j : ℕ) (d : α) (hj : j < M) :
    ((List.range M).map g).getD j d = g j := by
  rw [List.getD_eq_getElem?_getD, List.getElem?_eq_getElem (by simpa using hj)]
  simp

theorem getMat_mkMat (L M : ℕ) (f : ℕ → ℕ → ℕ) (r c : ℕ) (hr : r < L) (hc : c < M) :
    getMat (mkMat L M f) r c = f r c := by
  unfold getMat
  rw [getD_mkMat L M f r hr, getD_map_range M _ c 0 hc]

theorem set_map_range {α : Type} (M : ℕ) (g : ℕ → α) (j : ℕ) (v : α) :
    ((List.range M).map g).set j v =
      (List.range M).map (fun c => if c = j then v else g c) := by
  apply List.ext_getElem
  · simp
  · intro i h1 h2
    rw [List.getElem_set]
    simp only [List.getElem_map, List.getElem_range]
    by_cases hij : j = i
    · subst hij
      simp
    · rw [if_neg hij, if_neg (fun h => hij h.symm)]

theorem incrMat_mkMat (L M : ℕ) (f : ℕ → ℕ → ℕ) (r0 c0 : ℕ) (hr : r0 < L) (hc : c0 < M) :
    incrMat (mkMat L M f) r0 c0 =
      mkMat L M (fun r c => if r = r0 ∧ c = c0 then f r c + 1 else f r c) := by
  unfold incrMat
  rw [getD_mkMat L M f r0 hr, getD_map_range M _ c0 0 hc]
  rw [show mkMat L M f = (List.range L).map (fun r => (List.range M).map (fun c => f r c))
    from rfl]
  rw [set_map_range L _ r0 _, set_map_range M _ c0 _]
  unfold mkMat
  apply List.map_congr_left
  intro r hrm
  by_cases hrr : r = r0
  · subst hrr
    rw [if_pos rfl]
    apply List.map_congr_left
    intro c hcm
    by_cases hcc : c = c0
    · subst hcc
      rw [if_pos rfl]
      simp
    · rw [if_neg hcc]
      simp [hcc]
  · rw [if_neg hrr]
    apply List.map_congr_left
    intro c hcm
    simp [hrr]



theorem rowsCond_iff (qb : ℕ) (rest : List ℕ) (iqs : List ℕ) (col : ℕ) (k r c : ℕ)
    (hrk : r ≠ k) :
    (k + 1 ≤ r ∧ r - (k + 1) < rest.length ∧ rest.getD (r - (k + 1)) 0 ∈ iqs ∧ c = col) ↔
    (k ≤ r ∧ r - k < (qb :: rest).length ∧ (qb :: rest).getD (r - k) 0 ∈ iqs ∧ c = col) := by
  constructor
  · rintro ⟨h1, h2, h3, h4⟩
    refine ⟨by omega, by simp; omega, ?_, h4⟩
    have hsub : r - k = (r - (k + 1)) + 1 := by omega
    rw [hsub, List.getD_cons_succ]
    exact h3
  · rintro ⟨h1, h2, h3, h4⟩
    have h1' : k + 1 ≤ r := by omega
    have hsub : r - k = (r - (k + 1)) + 1 := by omega
    refine ⟨h1', by simp at h2; omega, ?_, h4⟩
    rw [hsub, List.getD_cons_succ] at h3
    exact h3

theorem rowsUpdate_mkMat (qs : List ℕ) (k : ℕ) (iqs : List ℕ) (col : ℕ) (L M : ℕ)
    (f : ℕ → ℕ → ℕ) (hL : k + qs.length = L) (hcol : col < M) :
    rowsUpdate qs k iqs col (mkMat L M f) =
      mkMat L M (fun r c =>
        if k ≤ r ∧ r - k < qs.length ∧ qs.getD (r - k) 0 ∈ iqs ∧ c = col
        then f r c + 1 else f r c) := by
  induction qs generalizing k f with
  | nil =>
    simp only [rowsUpdate]
    apply mkMat_congr
    intro r hr c hc
    have hno : ¬(k ≤ r ∧ r - k < ([] : List ℕ).length ∧ ([] : List ℕ).getD (r - k) 0 ∈ iqs
        ∧ c = col) := by
      simp
    rw [if_neg hno]
  | cons qb rest ih =>
    simp only [rowsUpdate]
    have hkL : k < L := by
      simp only [List.length_cons] at hL
      omega
    have hL' : (k + 1) + rest.length = L := by
      simp only [List.length_cons] at hL
      omega
    by_cases hqb : qb ∈ iqs
    · rw [if_pos hqb, incrMat_mkMat L M f k col hkL hcol, ih (k + 1) _ hL']
      apply mkMat_congr
      intro r hr c hc
      by_cases hrk : r = k
      · subst hrk
        have hno : ¬(r + 1 ≤ r) := by omega
        rw [if_neg (fun hcon => hno hcon.1)]
        by_cases hcc : c = col
        · subst hcc
          rw [if_pos ⟨rfl, rfl⟩, if_pos ⟨le_refl r, by simp [Nat.sub_self, hqb]⟩]
        · rw [if_neg (fun hcon => hcc hcon.2), if_neg (fun hcon => hcc hcon.2.2.2)]
      · have hg : (if r = k ∧ c = col then f r c + 1 else f r c) = f r c :=
          if_neg (fun hcon => hrk hcon.1)
        rw [hg]
        exact if_congr (rowsCond_iff qb rest iqs col k r c hrk) rfl rfl
    · rw [if_neg hqb, ih (k + 1) f hL']
      apply mkMat_congr
      intro r hr c hc
      by_cases hrk : r = k
      · subst hrk
        have hno : ¬(r + 1 ≤ r) := by omega
        rw [if_neg (fun hcon => hno hcon.1)]
        rw [if_neg (fun hcon => hqb (by simpa [Nat.sub_self] using hcon.2.2.1))]
      · exact if_congr (rowsCond_iff qb rest iqs col k r c hrk) rfl rfl



theorem lookupVal_of_mem_nodup {α β : Type} [DecidableEq α] (l : List (α × β)) (k : α) (v : β)
    (hmem : (k, v) ∈ l) (hnd : (l.map Prod.fst).Nodup) : lookupVal k l = some v := by
  induction l with
  | nil => cases hmem
  | cons hd tl ih =>
    obtain ⟨a, w⟩ := hd
    simp only [List.map_cons, List.nodup_cons] at hnd
    by_cases hak : a = k
    · subst hak
      rcases List.mem_cons.mp hmem with h1 | h1
      · cases h1
        simp [lookupVal]
      · exact absurd (List.mem_map_of_mem Prod.fst h1) hnd.1
    · have h1 : (k, v) ∈ tl := by
        rcases List.mem_cons.mp hmem with h2 | h2
        · exfalso
          apply hak
          injection h2 with h2a h2b
          exact h2a.symm
        · exact h2
      simp only [lookupVal, if_neg hak]
      exact ih h1 hnd.2

theorem mem_basis_ind (basis : List String) (c : ℕ) (hc : c < basis.length) :
    (basis.getD c "", c) ∈ basis_ind basis := by
  unfold basis_ind
  rw [List.mem_reverse]
  have hmem : (c, basis.getD c "") ∈ basis.enum := by
    rw [List.mk_mem_enum_iff_getElem?, List.getElem?_eq_getElem hc,
      List.getD_eq_getElem?_getD, List.getElem?_eq_getElem hc]
    rfl
  exact List.mem_map_of_mem _ hmem

theorem basis_ind_keys_nodup (basis : List String) (hb : basis.Nodup) :
    ((basis_ind basis).map Prod.fst).Nodup := by
  unfold basis_ind
  rw [List.map_reverse, List.nodup_reverse, List.map_map]
  have hcomp : (Prod.fst ∘ fun p : ℕ × String => (p.2, p.1)) = Prod.snd := rfl
  rw [hcomp, List.enum_map_snd]
  exact hb

theorem lookupVal_basis_ind (basis : List String) (hb : basis.Nodup) (c : ℕ)
    (hc : c < basis.length) :
    lookupVal (basis.getD c "") (basis_ind basis) = some c :=
  lookupVal_of_mem_nodup _ _ _ (mem_basis_ind basis c hc) (basis_ind_keys_nodup basis hb)

theorem mem_getD_of_mem (basis : List String) (name : String) (h : name ∈ basis) :
    ∃ c, c < basis.length ∧ basis.getD c "" = name := by
  obtain ⟨c, hc, hget⟩ := List.mem_iff_getElem.mp h
  refine ⟨c, hc, ?_⟩
  rw [List.getD_eq_getElem?_getD, List.getElem?_eq_getElem hc]
  simpa using hget

theorem getD_mem_of_lt (basis : List String) (c : ℕ) (hc : c < basis.length) :
    basis.getD c "" ∈ basis := by
  rw [List.getD_eq_getElem?_getD, List.getElem?_eq_getElem hc]
  exact List.getElem_mem hc

theorem getD_inj_str (basis : List String) (hb : basis.Nodup) (i j : ℕ) (hi : i < basis.length)
    (hj : j < basis.length) (h : basis.getD i "" = basis.getD j "") : i = j := by
  rw [List.getD_eq_getElem?_getD, List.getElem?_eq_getElem hi,
    List.getD_eq_getElem?_getD, List.getElem?_eq_getElem hj] at h
  simp only [Option.getD_some] at h
  exact (List.Nodup.getElem_inj_iff hb).mp h



theorem count_exp_foldl (basis : List String) (qubits : List ℕ) (hb : basis.Nodup)
    (l : List Instruction) (f : ℕ → ℕ → ℕ) :
    l.foldl (fun m ins => if ins.name ∈ basis then
        rowsUpdate qubits 0 ins.qubits ((lookupVal ins.name (basis_ind basis)).getD 0) m
      else m) (mkMat qubits.length basis.length f)
    = mkMat qubits.length basis.length (fun r c => f r c +
        (l.filter (fun ins =>
          ins.name == basis.getD c "" && ins.qubits.contains (qubits.getD r 0))).length) := by
  induction l generalizing f with
  | nil =>
    rw [List.foldl_nil]
    apply mkMat_congr
    intro r hr c hc
    simp
  | cons ins rest ih =>
    rw [List.foldl_cons]
    by_cases hname : ins.name ∈ basis
    · rw [if_pos hname]
      obtain ⟨c0, hc0, hgc0⟩ := mem_getD_of_mem basis ins.name hname
      have hcol : (lookupVal ins.name (basis_ind basis)).getD 0 = c0 := by
        rw [← hgc0, lookupVal_basis_ind basis hb c0 hc0]
        rfl
      rw [hcol, rowsUpdate_mkMat qubits 0 ins.qubits c0 qubits.length basis.length f
        (by simp) hc0, ih]
      apply mkMat_congr
      intro r hr c hc
      rw [List.filter_cons]
      by_cases hmatch :
          (ins.name == basis.getD c "" && ins.qubits.contains (qubits.getD r 0)) = true
      · rw [if_pos hmatch]
        simp only [Bool.and_eq_true, beq_iff_eq, List.contains, List.elem_iff]
          at hmatch
        obtain ⟨hname_eq, hmem⟩ := hmatch
        have hcceq : c = c0 :=
          getD_inj_str basis hb c c0 hc hc0 (hname_eq.symm.trans hgc0.symm)
        rw [if_pos ⟨Nat.zero_le r, by simpa using hr, by simpa using hmem, hcceq⟩]
        simp only [List.length_cons]
        omega
      · rw [if_neg hmatch]
        have hno : ¬(0 ≤ r ∧ r - 0 < qubits.length ∧ qubits.getD (r - 0) 0 ∈ ins.qubits
            ∧ c = c0) := by
          rintro ⟨-, -, h3, h4⟩
          apply hmatch
          subst h4
          simp only [Bool.and_eq_true, beq_iff_eq, List.contains, List.elem_iff]
          exact ⟨hgc0.symm, by simpa using h3⟩
        rw [if_neg hno]
    · rw [if_neg hname, ih]
      apply mkMat_congr
      intro r hr c hc
      rw [List.filter_cons]
      have hno : (ins.name == basis.getD c "" && ins.qubits.contains (qubits.getD r 0))
          = false := by
        have hne : ins.name ≠ basis.getD c "" := by
          intro h
          exact hname (h ▸ getD_mem_of_lt basis c hc)
        rw [beq_eq_false_iff_ne.mpr hne, Bool.false_and]
      rw [hno]
      simp



theorem count_exp_eq (basis : List String) (qubits : List ℕ) (hb : basis.Nodup)
    (e : QasmExperiment) :
    count_exp basis qubits e = mkMat qubits.length basis.length
      (fun r c => specInstrCount e (basis.getD c "") (qubits.getD r 0)) := by
  unfold count_exp
  rw [replicate_eq_mkMat, count_exp_foldl basis qubits hb e.instructions]
  apply mkMat_congr
  intro r hr c hc
  simp [specInstrCount]

theorem count_gates_exp_getD (qobj : QasmQobj) (basis : List String) (qubits : List ℕ)
    (hb : basis.Nodup) (i : ℕ) (hi : i < qobj.experiments.length) :
    (count_gates qobj basis qubits).getD i [] =
      mkMat qubits.length basis.length
        (fun r c => specInstrCount (qobj.experiments.getD i ⟨[]⟩)
          (basis.getD c "") (qubits.getD r 0)) := by
  unfold count_gates
  rw [List.getD_eq_getElem?_getD, List.getElem?_map, List.getElem?_eq_getElem hi]
  simp only [Option.map_some', Option.getD_some]
  rw [count_exp_eq basis qubits hb]
  have hsame : qobj.experiments.getD i ⟨[]⟩ = qobj.experiments[i] := by
    rw [List.getD_eq_getElem?_getD, List.getElem?_eq_getElem hi]
    rfl
  rw [hsame]

/-- C9 (amended): for a duplicate-free basis list, `count_gates` returns an
N x L x M array whose `[i][q][g]` entry is the number of instructions of
experiment `i` whose name equals `basis[g]` and whose target-qubit list
contains `qubits[q]`; a multi-qubit instruction touching several tracked
qubits increments the slot of each such qubit, once per qubit and only in
its own basis-gate slot. -/
theorem count_gates_entries (qobj : QasmQobj) (basis : List String) (qubits : List ℕ)
    (hb : basis.Nodup) :
    (count_gates qobj basis qubits).length = qobj.experiments.length ∧
    (∀ i, i < qobj.experiments.length →
      ((count_gates qobj basis qubits).getD i []).length = qubits.length ∧
      (∀ r, r < qubits.length →
        (((count_gates qobj basis qubits).getD i []).getD r []).length = basis.length) ∧
      (∀ r c, r < qubits.length → c < basis.length →
        get3 (count_gates qobj basis qubits) i r c =
          specInstrCount (qobj.experiments.getD i ⟨[]⟩)
            (basis.getD c "") (qubits.getD r 0))) := by
  refine ⟨by unfold count_gates; exact List.length_map _ _, ?_⟩
  intro i hi
  refine ⟨?_, ?_, ?_⟩
  · rw [count_gates_exp_getD qobj basis qubits hb i hi]
    exact length_mkMat _ _ _
  · intro r hr
    rw [count_gates_exp_getD qobj basis qubits hb i hi, getD_mkMat _ _ _ r hr]
    simp
  · intro r c hr hc
    unfold get3
    rw [count_gates_exp_getD qobj basis qubits hb i hi, getD_mkMat _ _ _ r hr,
      getD_map_range _ _ c 0 hc]

/-- Witness for C9's amended theorem: a two-qubit `cx` on qubits 0 and 1 is
counted once in each tracked qubit's `cx` slot. -/
theorem count_gates_entries_witness :
    get3 (count_gates ⟨[⟨[⟨"cx", [0, 1]⟩, ⟨"x", [1]⟩]⟩]⟩ ["x", "cx"] [0, 1]) 0 0 1 = 1 ∧
    get3 (count_gates ⟨[⟨[⟨"cx", [0, 1]⟩, ⟨"x", [1]⟩]⟩]⟩ ["x", "cx"] [0, 1]) 0 1 1 = 1 := by
  obtain ⟨-, -, hval⟩ := (count_gates_entries ⟨[⟨[⟨"cx", [0, 1]⟩, ⟨"x", [1]⟩]⟩]⟩ ["x", "cx"]
    [0, 1] (by decide)).2 0 (by decide)
  constructor
  · rw [hval 0 1 (by decide) (by decide)]
    decide
  · rw [hval 1 1 (by decide) (by decide)]
    decide

/-- C9 as stated fails for a basis list with a duplicate name: with basis
["x", "x"], the index dictionary maps "x" to its last slot only, so slot 0
stays 0 while the claimed per-entry formula demands 1. -/
theorem count_gates_dup_basis_cex :
    get3 (count_gates ⟨[⟨[⟨"x", [0]⟩]⟩]⟩ ["x", "x"] [0]) 0 0 0 = 0 ∧
    specInstrCount ⟨[⟨"x", [0]⟩]⟩ (["x", "x"].getD 0 "") 0 = 1 ∧ (0 : ℕ) ≠ 1 := by
  refine ⟨by decide, by decide, by decide⟩



theorem twoQ_loop_eq (ng : List ℕ) (gq : List ℤ) (ge : List ℚ)
    (hlab : ∀ x ∈ gq, x = 0 ∨ x = 1 ∨ x = -1) (a0 a1 a2 : ℚ) :
    twoQ_loop ng gq ge a0 a1 a2 =
      (a0 * alpha1Q_spec 0 ng gq ge, a1 * alpha1Q_spec 1 ng gq ge,
        a2 * alpha2Q_spec ng gq ge) := by
  induction ng generalizing gq ge a0 a1 a2 with
  | nil => simp [twoQ_loop, alpha1Q_spec, alpha2Q_spec, gateTriples]
  | cons n ns ih =>
    cases gq with
    | nil => simp [twoQ_loop, alpha1Q_spec, alpha2Q_spec, gateTriples]
    | cons q qs =>
      cases ge with
      | nil => simp [twoQ_loop, alpha1Q_spec, alpha2Q_spec, gateTriples]
      | cons e es =>
        have hlab' : ∀ x ∈ qs, x = 0 ∨ x = 1 ∨ x = -1 :=
          fun x hx => hlab x (List.mem_cons_of_mem _ hx)
        rcases hlab q (List.mem_cons_self _ _) with hq | hq | hq
        · subst hq
          simp only [twoQ_loop, if_neg (by decide : ¬(0 : ℤ) = -1), if_pos rfl]
          rw [ih qs es hlab']
          simp [alpha1Q_spec, alpha2Q_spec, gateTriples]
          ring
        · subst hq
          simp only [twoQ_loop, if_neg (by decide : ¬(1 : ℤ) = -1),
            if_neg (by decide : ¬(1 : ℤ) = 0)]
          rw [ih qs es hlab']
          simp [alpha1Q_spec, alpha2Q_spec, gateTriples]
          ring
        · subst hq
          simp only [twoQ_loop, if_pos rfl]
          rw [ih qs es hlab']
          simp [alpha1Q_spec, alpha2Q_spec, gateTriples]
          ring



/-- C2: for equal-length parallel lists with labels in {0, 1, -1} and
error rates in [0, 1], `twoQ_clifford_error` returns
(1 - (1/5)(alpha0 + alpha1 + 3 alpha0 alpha1) alpha2Q) * 3/4 where the
alphas are the products of (1 - 2 err)^count over the gates of each
single-qubit label and of (1 - 4/3 err)^count over the two-qubit gates;
consequently all-zero gate errors give error 0 regardless of counts. -/
theorem twoQ_clifford_error_formula (ng : List ℕ) (gq : List ℤ) (ge : List ℚ)
    (_hlen1 : gq.length = ng.length) (_hlen2 : ge.length = ng.length)
    (hlab : ∀ x ∈ gq, x = 0 ∨ x = 1 ∨ x = -1)
    (_hrange : ∀ e ∈ ge, 0 ≤ e ∧ e ≤ 1) :
    twoQ_clifford_error ng gq ge =
      (1 - 1/5 * (alpha1Q_spec 0 ng gq ge + alpha1Q_spec 1 ng gq ge
        + 3 * (alpha1Q_spec 0 ng gq ge * alpha1Q_spec 1 ng gq ge))
        * alpha2Q_spec ng gq ge) * 3 / 4 ∧
    ((∀ e ∈ ge, e = 0) → twoQ_clifford_error ng gq ge = 0) := by
  have hloop := twoQ_loop_eq ng gq ge hlab 1 1 1
  have hform : twoQ_clifford_error ng gq ge =
      (1 - 1/5 * (alpha1Q_spec 0 ng gq ge + alpha1Q_spec 1 ng gq ge
        + 3 * (alpha1Q_spec 0 ng gq ge * alpha1Q_spec 1 ng gq ge))
        * alpha2Q_spec ng gq ge) * 3 / 4 := by
    unfold twoQ_clifford_error
    rw [hloop]
    simp
  refine ⟨hform, ?_⟩
  intro hzero
  have hfac : ∀ t : ℕ × ℤ × ℚ, t ∈ gateTriples ng gq ge → t.2.2 = 0 := by
    intro t ht
    obtain ⟨n, q, e⟩ := t
    have h1 := List.of_mem_zip ht
    have h2 := List.of_mem_zip h1.2
    exact hzero e h2.2
  have hA : ∀ j : ℤ, alpha1Q_spec j ng gq ge = 1 := by
    intro j
    unfold alpha1Q_spec
    apply List.prod_eq_one
    intro x hx
    obtain ⟨t, ht, rfl⟩ := List.mem_map.mp hx
    rw [hfac t (List.mem_of_mem_filter ht)]
    simp
  have hA2 : alpha2Q_spec ng gq ge = 1 := by
    unfold alpha2Q_spec
    apply List.prod_eq_one
    intro x hx
    obtain ⟨t, ht, rfl⟩ := List.mem_map.mp hx
    rw [hfac t (List.mem_of_mem_filter ht)]
    simp
  rw [hform, hA 0, hA 1, hA2]
  norm_num



theorem acc_step_bounds (a b x y : ℚ) (n : ℕ) (h : 0 ≤ b ∧ b ≤ a ∧ a ≤ 1)
    (hy0 : 0 ≤ y) (hyx : y ≤ x) (hx1 : x ≤ 1) :
    0 ≤ b * y ^ n ∧ b * y ^ n ≤ a * x ^ n ∧ a * x ^ n ≤ 1 := by
  obtain ⟨hb0, hba, ha1⟩ := h
  have hx0 : 0 ≤ x := le_trans hy0 hyx
  refine ⟨mul_nonneg hb0 (pow_nonneg hy0 n), ?_, ?_⟩
  · exact mul_le_mul hba (pow_le_pow_left₀ hy0 hyx n) (pow_nonneg hy0 n) (le_trans hb0 hba)
  · exact mul_le_one₀ ha1 (pow_nonneg hx0 n) (pow_le_one₀ hx0 hx1)

theorem pointLe_refl (ge : List ℚ) : pointLe ge ge = true := by
  induction ge with
  | nil => rfl
  | cons e es ih => simp [pointLe, ih]

theorem pointLe_set (ge : List ℚ) (i : ℕ) (e' : ℚ) (h : ge.getD i 0 ≤ e') :
    pointLe ge (ge.set i e') = true := by
  induction ge generalizing i with
  | nil => rfl
  | cons e es ih =>
    cases i with
    | zero =>
      simp only [List.getD_cons_zero] at h
      simp [List.set, pointLe, h, pointLe_refl]
    | succ j =>
      simp only [List.getD_cons_succ] at h
      simp [List.set, pointLe, ih j h]

theorem errsOK_set (gq : List ℤ) (ge : List ℚ) (i : ℕ) (e' : ℚ)
    (hok : errsOK gq ge = true) (hbound : errOKb (gq.getD i 0) e' = true) :
    errsOK gq (ge.set i e') = true := by
  induction gq generalizing ge i with
  | nil =>
    cases ge with
    | nil => rfl
    | cons e es => exact absurd hok (by simp [errsOK])
  | cons q qs ih =>
    cases ge with
    | nil => exact absurd hok (by simp [errsOK])
    | cons e es =>
      simp only [errsOK, Bool.and_eq_true] at hok
      cases i with
      | zero =>
        simp only [List.getD_cons_zero] at hbound
        simp [List.set, errsOK, hbound, hok.2]
      | succ j =>
        simp only [List.getD_cons_succ] at hbound
        simp [List.set, errsOK, hok.1, ih es j hok.2 hbound]

theorem twoQ_loop_le (ng : List ℕ) (gq : List ℤ) (ge ge' : List ℚ)
    (hok : errsOK gq ge = true) (hok' : errsOK gq ge' = true)
    (hle : pointLe ge ge' = true) (a0 a1 a2 b0 b1 b2 : ℚ)
    (h0 : 0 ≤ b0 ∧ b0 ≤ a0 ∧ a0 ≤ 1) (h1 : 0 ≤ b1 ∧ b1 ≤ a1 ∧ a1 ≤ 1)
    (h2 : 0 ≤ b2 ∧ b2 ≤ a2 ∧ a2 ≤ 1) :
    (0 ≤ (twoQ_loop ng gq ge' b0 b1 b2).1 ∧
      (twoQ_loop ng gq ge' b0 b1 b2).1 ≤ (twoQ_loop ng gq ge a0 a1 a2).1 ∧
      (twoQ_loop ng gq ge a0 a1 a2).1 ≤ 1) ∧
    (0 ≤ (twoQ_loop ng gq ge' b0 b1 b2).2.1 ∧
      (twoQ_loop ng gq ge' b0 b1 b2).2.1 ≤ (twoQ_loop ng gq ge a0 a1 a2).2.1 ∧
      (twoQ_loop ng gq ge a0 a1 a2).2.1 ≤ 1) ∧
    (0 ≤ (twoQ_loop ng gq ge' b0 b1 b2).2.2 ∧
      (twoQ_loop ng gq ge' b0 b1 b2).2.2 ≤ (twoQ_loop ng gq ge a0 a1 a2).2.2 ∧
      (twoQ_loop ng gq ge a0 a1 a2).2.2 ≤ 1) := by
  induction ng generalizing gq ge ge' a0 a1 a2 b0 b1 b2 with
  | nil => exact ⟨h0, h1, h2⟩
  | cons n ns ih =>
    cases gq with
    | nil => exact ⟨h0, h1, h2⟩
    | cons q qs =>
      cases ge with
      | nil => exact absurd hok (by simp [errsOK])
      | cons e es =>
        cases ge' with
        | nil => exact absurd hok' (by simp [errsOK])
        | cons e' es' =>
          simp only [errsOK, Bool.and_eq_true] at hok hok'
          simp only [pointLe, Bool.and_eq_true, decide_eq_true_eq] at hle
          obtain ⟨hoke, hokes⟩ := hok
          obtain ⟨hoke', hokes'⟩ := hok'
          obtain ⟨hee', hles⟩ := hle
          simp only [twoQ_loop]
          by_cases hq : q = -1
          · rw [if_pos hq, if_pos hq]
            unfold errOKb at hoke hoke'
            rw [if_pos hq, Bool.and_eq_true, decide_eq_true_eq, decide_eq_true_eq]
              at hoke hoke'
            apply ih qs es es' hokes hokes' hles a0 a1 _ b0 b1 _ h0 h1
            exact acc_step_bounds a2 b2 (1 - 4/3 * e) (1 - 4/3 * e') n h2
              (by linarith [hoke'.1, hoke'.2]) (by linarith) (by linarith [hoke.1])
          · rw [if_neg hq, if_neg hq]
            unfold errOKb at hoke hoke'
            rw [if_neg hq, Bool.and_eq_true, decide_eq_true_eq, decide_eq_true_eq]
              at hoke hoke'
            by_cases hq0 : q = 0
            · rw [if_pos hq0, if_pos hq0]
              apply ih qs es es' hokes hokes' hles _ a1 a2 _ b1 b2 ?_ h1 h2
              exact acc_step_bounds a0 b0 (1 - 2 * e) (1 - 2 * e') n h0
                (by linarith [hoke'.1, hoke'.2]) (by linarith) (by linarith [hoke.1])
            · rw [if_neg hq0, if_neg hq0]
              apply ih qs es es' hokes hokes' hles a0 _ a2 b0 _ b2 h0 ?_ h2
              exact acc_step_bounds a1 b1 (1 - 2 * e) (1 - 2 * e') n h1
                (by linarith [hoke'.1, hoke'.2]) (by linarith) (by linarith [hoke.1])



/-- C3 (amended): on the range where every depolarizing factor stays
nonnegative (err <= 1/2 for single-qubit gates, err <= 3/4 for the
two-qubit gate), increasing one gate error while holding everything else
fixed does not decrease the returned Clifford error. -/
theorem twoQ_clifford_error_monotone (ng : List ℕ) (gq : List ℤ) (ge : List ℚ) (i : ℕ)
    (e' : ℚ) (_hlen1 : gq.length = ng.length) (_hlen2 : ge.length = ng.length)
    (_hlab : ∀ x ∈ gq, x = 0 ∨ x = 1 ∨ x = -1)
    (hok : errsOK gq ge = true) (hok' : errOKb (gq.getD i 0) e' = true)
    (hle : ge.getD i 0 ≤ e') :
    twoQ_clifford_error ng gq ge ≤ twoQ_clifford_error ng gq (ge.set i e') := by
  have hok2 : errsOK gq (ge.set i e') = true := errsOK_set gq ge i e' hok hok'
  have hple : pointLe ge (ge.set i e') = true := pointLe_set ge i e' hle
  have hm := twoQ_loop_le ng gq ge (ge.set i e') hok hok2 hple 1 1 1 1 1 1
    ⟨by norm_num, le_refl 1, le_refl 1⟩ ⟨by norm_num, le_refl 1, le_refl 1⟩
    ⟨by norm_num, le_refl 1, le_refl 1⟩
  rcases hr : twoQ_loop ng gq ge 1 1 1 with ⟨x0, x1, x2⟩
  rcases hs : twoQ_loop ng gq (ge.set i e') 1 1 1 with ⟨y0, y1, y2⟩
  rw [hr, hs] at hm
  simp only at hm
  obtain ⟨⟨hy0, hyx0, hx0⟩, ⟨hy1, hyx1, hx1⟩, ⟨hy2, hyx2, hx2⟩⟩ := hm
  have e1 : twoQ_clifford_error ng gq ge
      = (1 - 1/5 * (x0 + x1 + 3 * (x0 * x1)) * x2) * 3 / 4 := by
    unfold twoQ_clifford_error
    rw [hr]
  have e2 : twoQ_clifford_error ng gq (ge.set i e')
      = (1 - 1/5 * (y0 + y1 + 3 * (y0 * y1)) * y2) * 3 / 4 := by
    unfold twoQ_clifford_error
    rw [hs]
  rw [e1, e2]
  have hprod : y0 * y1 ≤ x0 * x1 := mul_le_mul hyx0 hyx1 hy1 (le_trans hy0 hyx0)
  have hsnn : 0 ≤ y0 + y1 + 3 * (y0 * y1) := by
    have := mul_nonneg hy0 hy1
    linarith
  have hsum : y0 + y1 + 3 * (y0 * y1) ≤ x0 + x1 + 3 * (x0 * x1) := by linarith
  have key : (y0 + y1 + 3 * (y0 * y1)) * y2 ≤ (x0 + x1 + 3 * (x0 * x1)) * x2 :=
    mul_le_mul hsum hyx2 hy2 (le_trans hsnn hsum)
  linarith



/-- Witness for C2 at a concrete input: perfect gates give a perfect
Clifford whatever the gate counts. -/
theorem twoQ_clifford_error_formula_witness :
    twoQ_clifford_error [3, 2, 5] [0, 1, -1] [0, 0, 0] = 0 :=
  (twoQ_clifford_error_formula [3, 2, 5] [0, 1, -1] [0, 0, 0] (by decide) (by decide)
    (by decide) (by norm_num)).2 (by norm_num)

/-- Witness for C3's amended theorem at a concrete input. -/
theorem twoQ_clifford_error_monotone_witness :
    twoQ_clifford_error [1, 1, 2] [0, 1, -1] [1/10, 1/5, 1/4]
      ≤ twoQ_clifford_error [1, 1, 2] [0, 1, -1]
          (([1/10, 1/5, 1/4] : List ℚ).set 0 (3/10)) :=
  twoQ_clifford_error_monotone [1, 1, 2] [0, 1, -1] [1/10, 1/5, 1/4] 0 (3/10)
    (by decide) (by decide) (by decide)
    (by norm_num [errsOK, errOKb]) (by norm_num [errOKb]) (by norm_num)

/-- C3 as stated is false: raising the two-qubit gate error from 3/4 to 1
(both within [0, 1]) strictly lowers the returned Clifford error from 3/4
to 2/3, because (1 - 4/3 err)^2 rises again once 1 - 4/3 err turns
negative. -/
theorem twoQ_clifford_error_nonmonotone_cex :
    twoQ_clifford_error [2] [-1] [3/4] = 3/4 ∧
    twoQ_clifford_error [2] [-1] (([3/4] : List ℚ).set 0 1) = 2/3 ∧
    (3/4 : ℚ) ≤ 1 ∧ (0 : ℚ) ≤ 3/4 ∧
    twoQ_clifford_error [2] [-1] (([3/4] : List ℚ).set 0 1)
      < twoQ_clifford_error [2] [-1] [3/4] := by
  refine ⟨?_, ?_, by norm_num, by norm_num, ?_⟩ <;>
    norm_num [twoQ_clifford_error, twoQ_loop, List.set]



/-- C4: for positive T1 and T2 lists of the right length,
`coherence_limit` returns exactly the stated closed forms — for one qubit
0.5 (1 - (2/3) exp(-g/T2) - (1/3) exp(-g/T1)), for two qubits the
1/15-2/15-4/15 weighted exponential expression — and a zero gate duration
gives error 0 in both cases. -/
theorem coherence_limit_closed_form (t1 t2 : List ℝ) (g : ℝ)
    (_h1 : ∀ x ∈ t1, 0 < x) (_h2 : ∀ x ∈ t2, 0 < x) :
    (t1.length = 1 → t2.length = 1 →
      coherence_limit 1 (some t1) (some t2) g
          = .ok (coherence_err_1Q (t1.getD 0 0) (t2.getD 0 0) g) ∧
        coherence_limit 1 (some t1) (some t2) 0 = .ok 0) ∧
    (t1.length = 2 → t2.length = 2 →
      coherence_limit 2 (some t1) (some t2) g
          = .ok (coherence_err_2Q (t1.getD 0 0) (t1.getD 1 0)
              (t2.getD 0 0) (t2.getD 1 0) g) ∧
        coherence_limit 2 (some t1) (some t2) 0 = .ok 0) := by
  constructor
  · intro hl1 hl2
    constructor
    · simp only [coherence_limit, hl1, hl2]
      norm_num [coherence_err_1Q]
      ring_nf
    · simp only [coherence_limit, hl1, hl2]
      norm_num [Real.exp_zero]
  · intro hl1 hl2
    constructor
    · simp only [coherence_limit, hl1, hl2]
      norm_num [coherence_err_2Q]
      ring_nf
    · simp only [coherence_limit, hl1, hl2]
      norm_num [Real.exp_zero]



/-- Witness for C4 at the spec's example: T1 = T2 = 100, zero duration,
error 0. -/
theorem coherence_limit_closed_form_witness :
    coherence_limit 1 (some [100]) (some [100]) 0 = .ok 0 :=
  ((coherence_limit_closed_form [100] [100] 37 (by norm_num) (by norm_num)).1 rfl rfl).2

/-- C6: `coherence_limit` raises the length-mismatch ValueError whenever
the T1 list (or the effective T2 list) does not have length nQ; with the
right lengths it raises the unsupported-configuration ValueError for any
nQ other than 1 and 2, and returns normally exactly for nQ in {1, 2}. -/
theorem coherence_limit_validation (nQ : ℕ) (t1 : List ℝ) (t2o : Option (List ℝ)) (g : ℝ) :
    (t1.length ≠ nQ ∨ (t2o.getD (t1.map (fun t => 2 * t))).length ≠ nQ →
      coherence_limit nQ (some t1) t2o g
        = .error (.valueError "T1 and/or T2 not the right length")) ∧
    (t1.length = nQ → (t2o.getD (t1.map (fun t => 2 * t))).length = nQ →
      nQ ≠ 1 → nQ ≠ 2 →
      coherence_limit nQ (some t1) t2o g
        = .error (.valueError "Not a valid number of qubits")) ∧
    (t1.length = nQ → (t2o.getD (t1.map (fun t => 2 * t))).length = nQ →
      nQ = 1 ∨ nQ = 2 → ∃ v, coherence_limit nQ (some t1) t2o g = .ok v) := by
  have hT2 : (match t2o with
      | none => t1.map (fun t => 2 * t)
      | some l => l) = t2o.getD (t1.map (fun t => 2 * t)) := by
    cases t2o <;> rfl
  refine ⟨?_, ?_, ?_⟩
  · intro hbad
    simp only [coherence_limit, hT2]
    rw [if_pos hbad]
  · intro hl1 hl2 hn1 hn2
    simp only [coherence_limit, hT2]
    rw [if_neg (by rw [hl1, hl2]; simp), if_neg hn1, if_neg hn2]
  · intro hl1 hl2 hn
    simp only [coherence_limit, hT2]
    rw [if_neg (by rw [hl1, hl2]; simp)]
    rcases hn with hn | hn
    · rw [if_pos hn]
      exact ⟨_, rfl⟩
    · subst hn
      rw [if_neg (by norm_num), if_pos rfl]
      exact ⟨_, rfl⟩

/-- Witness for C6 at concrete inputs covering all three branches. -/
theorem coherence_limit_validation_witness :
    coherence_limit 2 (some [100]) none 1
        = .error (.valueError "T1 and/or T2 not the right length") ∧
    coherence_limit 3 (some [10, 20, 30]) (some [1, 2, 3]) 1
        = .error (.valueError "Not a valid number of qubits") ∧
    ∃ v, coherence_limit 1 (some [100]) none 1 = .ok v := by
  refine ⟨?_, ?_, ?_⟩
  · exact (coherence_limit_validation 2 [100] none 1).1 (by norm_num)
  · exact (coherence_limit_validation 3 [10, 20, 30] (some [1, 2, 3]) 1).2.1
      (by norm_num) (by norm_num) (by norm_num) (by norm_num)
  · exact (coherence_limit_validation 1 [100] none 1).2.2 (by norm_num) (by norm_num)
      (Or.inl rfl)

/-- C7: omitting T2_list is the same as passing the elementwise doubling
2*T1 explicitly (the source computes T2 = 2*T1 in that case). -/
theorem coherence_limit_default_T2 (nQ : ℕ) (t1 : List ℝ) (g : ℝ)
    (_hn : nQ = 1 ∨ nQ = 2) (_hl : t1.length = nQ) :
    coherence_limit nQ (some t1) none g
      = coherence_limit nQ (some t1) (some (t1.map (fun t => 2 * t))) g := rfl

/-- Witness for C7 at a concrete input. -/
theorem coherence_limit_default_T2_witness :
    coherence_limit 1 (some [100]) none 5
      = coherence_limit 1 (some [100]) (some ([100].map (fun t => 2 * t))) 5 :=
  coherence_limit_default_T2 1 [100] 5 (Or.inl rfl) rfl

/-- C10: with T1_list left at its default None, `np.array(None)` is a
0-dimensional array and `2*T1` / `len(T1)` raise TypeError before any
validation or computation runs: the call never raises the length
ValueError and never returns a value. -/
theorem coherence_limit_none_T1 (nQ : ℕ) (t2o : Option (List ℝ)) (g : ℝ) :
    coherence_limit nQ none t2o g = .error (.typeError "len() of unsized object") ∧
    (∀ v, coherence_limit nQ none t2o g ≠ .ok v) ∧
    (∀ m, coherence_limit nQ none t2o g ≠ .error (.valueError m)) := by
  refine ⟨rfl, ?_, ?_⟩
  · intro v h
    simp [coherence_limit] at h
  · intro m h
    simp [coherence_limit] at h

end RB
